import Mathlib

/-!
Verification of the LaTeX-to-plain-text core of `latexclip.py`.

The two functions under study, `latex_to_plaintext` (lines 34-74) and
`sanitize_for_mathtext` (lines 76-90), are pure string-to-string pipelines
built from Python `str.replace` calls and `re.sub` calls with fixed
patterns.  Each pattern is hand-compiled here into an executable scanner
over `List Char` with Python's semantics: left-to-right scan,
non-overlapping matches, leftmost alternative preference, greedy character
classes, lazy `.*?` matching the earliest closing delimiter, and the
replacement text never being rescanned by the same pass.

Python's `\s` and `str.strip()` act on the six ASCII whitespace
characters (plus some Unicode ones, which never occur in any input
considered here); `pyWS` models the ASCII set.
-/

/-- The six ASCII characters matched by Python's `\s` / stripped by `str.strip()`. -/
def pyWS (c : Char) : Bool :=
  c = ' ' || c = '\t' || c = '\n' || c = '\x0d' || c = '\x0b' || c = '\x0c'

/-- Backslash, the LaTeX escape character. -/
def bs : Char := '\x5c'

/-- Open brace. -/
def obr : Char := '\x7b'

/-- Close brace. -/
def cbr : Char := '\x7d'

/-- Open parenthesis. -/
def oprn : Char := '('

/-- Close parenthesis. -/
def cprn : Char := ')'

/-- A matcher: given the current suffix of the string, return
`some (replacement, consumedLength)` when the pattern matches at this
position, else `none`.  `consumedLength ≥ 1` for every matcher below. -/
def Matcher : Type := List Char → Option (List Char × Nat)

/-- The generic substitution engine shared by all `re.sub` / `str.replace`
steps.  First argument is the number of already-consumed characters still
to skip; a match emits its replacement and skips the rest of the matched
text, exactly like Python's `re.sub` (replacement text is not rescanned). -/
def substGo (m : Matcher) : Nat → List Char → List Char
  | _, [] => []
  | Nat.succ k, _ :: t => substGo m k t
  | 0, c :: t =>
    match m (c :: t) with
    | some (r, n) => r ++ substGo m (n - 1) t
    | none => c :: substGo m 0 t

/-- Replace every non-overlapping match of `m`, scanning left to right. -/
def subst (m : Matcher) (s : List Char) : List Char := substGo m 0 s

/-- Matcher for a fixed literal pattern (Python `str.replace`, and `re.sub`
with a metacharacter-free pattern). -/
def mRepl (pat rep : List Char) : Matcher := fun s =>
  if pat.isPrefixOf s then some (rep, pat.length) else none

/-- Python `s.replace(pat, rep)`: leftmost, non-overlapping. -/
def replaceAll (pat rep : List Char) (s : List Char) : List Char :=
  subst (mRepl pat rep) s

/-- Leftmost occurrence of `pat`: returns the text before it and the text
after it.  Used for the lazy `(.*?)` groups. -/
def findFrom (pat : List Char) : List Char → Option (List Char × List Char)
  | [] => if pat.isPrefixOf ([] : List Char) then some ([], []) else none
  | c :: t =>
    if pat.isPrefixOf (c :: t) then some ([], (c :: t).drop pat.length)
    else
      match findFrom pat t with
      | some (a, b) => some (c :: a, b)
      | none => none

/-- `re.sub(r"\$\$(.*?)\$\$", r"\1", out, flags=re.DOTALL)` (line 39):
strip paired `$$` delimiters, lazy content. -/
def mDD : Matcher := fun s =>
  match s with
  | c :: t =>
    if c = '$' then
      match t with
      | d :: u =>
        if d = '$' then
          match findFrom ['$', '$'] u with
          | some (content, _) => some (content, 4 + content.length)
          | none => none
        else none
      | [] => none
    else none
  | [] => none

/-- `re.sub(r"\$(.*?)\$", r"\1", out, flags=re.DOTALL)` (line 40):
strip paired single-`$` delimiters, lazy content. -/
def mD : Matcher := fun s =>
  match s with
  | c :: t =>
    if c = '$' then
      match findFrom ['$'] t with
      | some (content, _) => some (content, 2 + content.length)
      | none => none
    else none
  | [] => none

/-- Find the first name in `names` (Python alternation order) that is a
prefix of `t`. -/
def firstPre (names : List (List Char)) (t : List Char) : Option (List Char) :=
  names.find? (fun nm => nm.isPrefixOf t)

/-- Matcher for `\\(name1|name2|...)` with optional trailing `\s*` swallow
and a replacement computed from the matched name (lines 43-51). -/
def mCmdNames (names : List (List Char)) (rep : List Char → List Char)
    (swallowWS : Bool) : Matcher := fun s =>
  match s with
  | c :: t =>
    if c = bs then
      match firstPre names t with
      | some nm =>
        let wsN := if swallowWS then ((t.drop nm.length).takeWhile pyWS).length else 0
        some (rep nm, 1 + nm.length + wsN)
      | none => none
    else none
  | [] => none

/-- The function-name table of line 43. -/
def funcNames : List (List Char) :=
  ["sin".data, "cos".data, "tan".data, "log".data, "ln".data,
   "det".data, "dim".data, "lim".data, "exp".data, "deg".data]

/-- The Greek-letter table of lines 45-46, in source alternation order. -/
def greekNames : List (List Char) :=
  ["alpha".data, "beta".data, "gamma".data, "delta".data, "epsilon".data,
   "zeta".data, "eta".data, "theta".data, "iota".data, "kappa".data,
   "lambda".data, "mu".data, "nu".data, "xi".data, "pi".data, "rho".data,
   "sigma".data, "tau".data, "upsilon".data, "phi".data, "chi".data,
   "psi".data, "omega".data,
   "Gamma".data, "Delta".data, "Theta".data, "Lambda".data, "Xi".data,
   "Pi".data, "Sigma".data, "Upsilon".data, "Phi".data, "Psi".data,
   "Omega".data]

/-- The symbol table of line 49 (`cdot`/`times`, replaced by `*`). -/
def symNames : List (List Char) := ["cdot".data, "times".data]

/-- `re.sub(r"\\sqrt\[([^\]]*)\]\{([^}]*)\}", r"(\2)^(1/\1)", out)` (line 54). -/
def mSqrtB : Matcher := fun s =>
  match s with
  | c :: t =>
    if c = bs then
      if ("sqrt[".data).isPrefixOf t then
        let u := t.drop 5
        let a1 := u.takeWhile (fun x => !(x = ']'))
        match u.drop a1.length with
        | e :: v =>
          if e = ']' then
            match v with
            | f :: w =>
              if f = obr then
                let a2 := w.takeWhile (fun x => !(x = cbr))
                match w.drop a2.length with
                | g :: _ =>
                  if g = cbr then
                    some (oprn :: a2 ++ [cprn, '^', oprn, '1', '/'] ++ a1 ++ [cprn],
                      9 + a1.length + a2.length)
                  else none
                | [] => none
              else none
            | [] => none
          else none
        | [] => none
      else none
    else none
  | [] => none

/-- `re.sub(r"\\sqrt\{([^}]*)\}", r"sqrt(\1)", out)` (line 55). -/
def mSqrt : Matcher := fun s =>
  match s with
  | c :: t =>
    if c = bs then
      if ("sqrt".data ++ [obr]).isPrefixOf t then
        let u := t.drop 5
        let a := u.takeWhile (fun x => !(x = cbr))
        match u.drop a.length with
        | e :: _ =>
          if e = cbr then
            some (['s', 'q', 'r', 't', oprn] ++ a ++ [cprn], 7 + a.length)
          else none
        | [] => none
      else none
    else none
  | [] => none

/-- `re.sub(r"\\text\{([^}]*)\}", rep, ...)`: shared scanner for line 57
(plain text, `rep = \1`) and line 85 (sanitizer, `rep = \mathrm{\1}`). -/
def mTextWith (mk : List Char → List Char) : Matcher := fun s =>
  match s with
  | c :: t =>
    if c = bs then
      if ("text".data ++ [obr]).isPrefixOf t then
        let u := t.drop 5
        let a := u.takeWhile (fun x => !(x = cbr))
        match u.drop a.length with
        | e :: _ =>
          if e = cbr then some (mk a, 7 + a.length) else none
        | [] => none
      else none
    else none
  | [] => none

/-- One `\frac` argument `\{([^{}]+|\{[^}]*\})\}` of line 61: either a
nonempty brace-free run, or a single one-level brace group (captured with
its braces), in that alternation order; then the closing brace. -/
def parseBracedArg (t : List Char) : Option (List Char × List Char) :=
  match t with
  | t0 :: u =>
    if t0 = obr then
      match u with
      | u0 :: u1 =>
        if u0 = obr then
          let inner := u1.takeWhile (fun x => !(x = cbr))
          match u1.drop inner.length with
          | e :: r2 =>
            if e = cbr then
              match r2 with
              | f :: r3 => if f = cbr then some (obr :: inner ++ [cbr], r3) else none
              | [] => none
            else none
          | [] => none
        else if u0 = cbr then none
        else
          let run := u.takeWhile (fun x => !(x = obr || x = cbr))
          match u.drop run.length with
          | e :: r => if e = cbr then some (run, r) else none
          | [] => none
      | [] => none
    else none
  | [] => none

/-- `re.sub(r"\\frac\{([^{}]+|\{[^}]*\})\}\{([^{}]+|\{[^}]*\})\}", ..., out)`
(lines 58-61), replacement `f"({num})/({den})"`. -/
def mFrac : Matcher := fun s =>
  match s with
  | c :: t =>
    if c = bs then
      if ("frac".data).isPrefixOf t then
        match parseBracedArg (t.drop 4) with
        | some (a, r1) =>
          match parseBracedArg r1 with
          | some (b, r2) =>
            some (oprn :: a ++ [cprn, '/', oprn] ++ b ++ [cprn], s.length - r2.length)
          | none => none
        | none => none
      else none
    else none
  | [] => none

/-- `re.sub(r"\^\{([^}]*)\}", r"^\1", out)` (line 63). -/
def mSup : Matcher := fun s =>
  match s with
  | c :: t =>
    if c = '^' then
      match t with
      | d :: u =>
        if d = obr then
          let a := u.takeWhile (fun x => !(x = cbr))
          match u.drop a.length with
          | e :: _ => if e = cbr then some ('^' :: a, 3 + a.length) else none
          | [] => none
        else none
      | [] => none
    else none
  | [] => none

/-- `re.sub(r"_\{([^}]*)\}", r"_\1", out)` (line 64). -/
def mSubSc : Matcher := fun s =>
  match s with
  | c :: t =>
    if c = '_' then
      match t with
      | d :: u =>
        if d = obr then
          let a := u.takeWhile (fun x => !(x = cbr))
          match u.drop a.length with
          | e :: _ => if e = cbr then some ('_' :: a, 3 + a.length) else none
          | [] => none
        else none
      | [] => none
    else none
  | [] => none

/-- `re.sub(r"\s+", " ", ...)`: collapse each whitespace run to one space. -/
def mWS : Matcher := fun s =>
  match s with
  | c :: t => if pyWS c then some ([' '], 1 + (t.takeWhile pyWS).length) else none
  | [] => none

/-- `str.strip()`: drop leading and trailing whitespace. -/
def stripWS (s : List Char) : List Char :=
  ((s.dropWhile pyWS).reverse.dropWhile pyWS).reverse

/-- Whitespace normalization of lines 73 and 87: collapse runs, then strip. -/
def normWS (s : List Char) : List Char := stripWS (subst mWS s)

/-- The open-brace sentinel `__LACE_BRACE__` of line 37, as characters. -/
def laceT : List Char :=
  ['_', '_', 'L', 'A', 'C', 'E', '_', 'B', 'R', 'A', 'C', 'E', '_', '_']

/-- The close-brace sentinel `__RACE_BRACE__` of line 37, as characters. -/
def raceT : List Char :=
  ['_', '_', 'R', 'A', 'C', 'E', '_', 'B', 'R', 'A', 'C', 'E', '_', '_']

/-- The two-character escaped open brace. -/
def escObr : List Char := [bs, obr]

/-- The two-character escaped close brace. -/
def escCbr : List Char := [bs, cbr]

/-- Line 37: `out.replace(r"\{", "__LACE_BRACE__").replace(r"\}", "__RACE_BRACE__")`. -/
def protectBraces (s : List Char) : List Char :=
  replaceAll escCbr raceT (replaceAll escObr laceT s)

/-- Line 72: `out.replace("__LACE_BRACE__", "{").replace("__RACE_BRACE__", "}")`. -/
def restoreBraces (s : List Char) : List Char :=
  replaceAll raceT [cbr] (replaceAll laceT [obr] s)

/-- Lines 38-70 of `latex_to_plaintext`: everything strictly between the
brace protection of line 37 and the brace restoration of line 72, in
source order. -/
def midPipe (s : List Char) : List Char :=
  let o3 := subst mDD s
  let o4 := subst mD o3
  let o5 := subst (mCmdNames funcNames id true) o4
  let o6 := subst (mCmdNames greekNames id false) o5
  let o7 := subst (mCmdNames symNames (fun _ => ['*']) false) o6
  let o8 := replaceAll [bs, 'p', 'm'] ['+', '-'] o7
  let o9 := replaceAll [bs, 'm', 'p'] ['-', '+'] o8
  let o10 := subst mSqrtB o9
  let o11 := subst mSqrt o10
  let o12 := subst (mTextWith id) o11
  let o13 := subst mFrac o12
  let o14 := subst mSup o13
  let o15 := subst mSubSc o14
  let o16 := replaceAll (bs :: "left".data) [] o15
  let o17 := replaceAll (bs :: "right".data) [] o16
  let o18 := replaceAll [obr] [oprn] o17
  replaceAll [cbr] [cprn] o18

/-- The full `latex_to_plaintext` pipeline of lines 34-74, step by step in
source order. -/
def ltp (s : List Char) : List Char :=
  normWS (restoreBraces (midPipe (protectBraces s)))

/-- `latex_to_plaintext` of `latexclip.py`, lines 34-74. -/
def latex_to_plaintext (s : String) : String := ⟨ltp s.data⟩

/-- Lines 77-81 of the sanitizer: strip whitespace, then paired `$$`
delimiters, then paired `\[ \]` delimiters (each followed by a strip). -/
def sanStripped (s : List Char) : List Char :=
  let t0 := stripWS s
  let t1 :=
    if (['$', '$'].isPrefixOf t0 && ['$', '$'].isSuffixOf t0) then
      stripWS ((t0.drop 2).dropLast.dropLast)
    else t0
  if ([bs, '['].isPrefixOf t1 && [bs, ']'].isSuffixOf t1) then
    stripWS ((t1.drop 2).dropLast.dropLast)
  else t1

/-- Line 82: `already_math = text.startswith("$") and text.endswith("$")`. -/
def sanAlready (s : List Char) : Bool :=
  ['$'].isPrefixOf (sanStripped s) && ['$'].isSuffixOf (sanStripped s)

/-- Lines 83-87 of the sanitizer: rewrite `\text{X}` to `\mathrm{X}`,
delete `\left`/`\right`, collapse whitespace and strip. -/
def sanTransformed (s : List Char) : List Char :=
  let t3 := subst (mTextWith (fun a => (bs :: "mathrm".data) ++ obr :: a ++ [cbr])) (sanStripped s)
  let t4 := replaceAll (bs :: "left".data) [] t3
  let t5 := replaceAll (bs :: "right".data) [] t4
  normWS t5

/-- Lines 76-90 of `latexclip.py` in full. -/
def sanitizeList (s : List Char) : List Char :=
  if !sanAlready s && !((sanTransformed s).contains '\n') then
    '$' :: sanTransformed s ++ ['$']
  else sanTransformed s

/-- `sanitize_for_mathtext` of `latexclip.py`, lines 76-90. -/
def sanitize_for_mathtext (s : String) : String := ⟨sanitizeList s.data⟩

/-! ### Auxiliary definitions used by the proofs -/

/-- `containsSeq pat s` : does `pat` occur as a contiguous substring of `s`? -/
def containsSeq (pat : List Char) : List Char → Bool
  | [] => pat.isPrefixOf ([] : List Char)
  | c :: t => pat.isPrefixOf (c :: t) || containsSeq pat t

/-- Characters on which every step of `midPipe` is inert: not the escape
character, not a math delimiter, not a brace.  (`^` and `_` are harmless on
their own: their patterns also need a brace.) -/
def okMid (c : Char) : Prop := c ≠ bs ∧ c ≠ '$' ∧ c ≠ obr ∧ c ≠ cbr

/-- An input item: a plain character, an escaped open brace `\{`, or an
escaped close brace `\}`. -/
inductive BItem where
  | pch (c : Char)
  | lb
  | rb

/-- A plain character is inert for the whole pipeline and cannot spoof the
sentinels: it is none of `\`, `$`, `_`, `{`, `}`. -/
def itemOKb : BItem → Bool
  | .pch c => !(c = bs || c = '$' || c = '_' || c = obr || c = cbr)
  | _ => true

def itemOK (i : BItem) : Prop := itemOKb i = true

/-- Input rendering: escaped braces render as the two-character sequences. -/
def rIn : List BItem → List Char
  | [] => []
  | BItem.pch c :: r => c :: rIn r
  | BItem.lb :: r => bs :: obr :: rIn r
  | BItem.rb :: r => bs :: cbr :: rIn r

/-- Output rendering: escaped braces become literal braces. -/
def rOut : List BItem → List Char
  | [] => []
  | BItem.pch c :: r => c :: rOut r
  | BItem.lb :: r => obr :: rOut r
  | BItem.rb :: r => cbr :: rOut r

/-- After line 37's first replace: `\{` has become the open sentinel. -/
def midA : List BItem → List Char
  | [] => []
  | BItem.pch c :: r => c :: midA r
  | BItem.lb :: r => laceT ++ midA r
  | BItem.rb :: r => bs :: cbr :: midA r

/-- After line 37 in full: both sentinels in place. -/
def midB : List BItem → List Char
  | [] => []
  | BItem.pch c :: r => c :: midB r
  | BItem.lb :: r => laceT ++ midB r
  | BItem.rb :: r => raceT ++ midB r

/-- After the first replace of line 72: open sentinels are braces again. -/
def midC : List BItem → List Char
  | [] => []
  | BItem.pch c :: r => c :: midC r
  | BItem.lb :: r => obr :: midC r
  | BItem.rb :: r => raceT ++ midC r

/-- Escaped-brace-only streams, encoded by a list of booleans
(`true` = `\{`, `false` = `\}`). -/
def escRender (eb : List Bool) : List BItem :=
  eb.map (fun b => if b then BItem.lb else BItem.rb)

/-- All the fixed rewrite-table names of `latex_to_plaintext`: the named
functions, the Greek letters, the symbol commands, and the remaining
literal command patterns. -/
def tableNames : List (List Char) :=
  funcNames ++ greekNames ++ symNames ++
  ["pm".data, "mp".data, "sqrt".data, "text".data, "frac".data,
   "left".data, "right".data]


/-! ### Basic facts about the substitution engine -/

theorem substGo_nil (m : Matcher) (k : Nat) : substGo m k [] = [] := by
  cases k <;> rfl

theorem substGo_succ (m : Matcher) (k : Nat) (c : Char) (t : List Char) :
    substGo m (k + 1) (c :: t) = substGo m k t := rfl

theorem substGo_zero_none (m : Matcher) (c : Char) (t : List Char)
    (h : m (c :: t) = none) : substGo m 0 (c :: t) = c :: substGo m 0 t := by
  show (match m (c :: t) with
    | some (r, n) => r ++ substGo m (n - 1) t
    | none => c :: substGo m 0 t) = c :: substGo m 0 t
  rw [h]

theorem substGo_zero_some (m : Matcher) (c : Char) (t r : List Char) (n : Nat)
    (h : m (c :: t) = some (r, n)) :
    substGo m 0 (c :: t) = r ++ substGo m (n - 1) t := by
  show (match m (c :: t) with
    | some (r, n) => r ++ substGo m (n - 1) t
    | none => c :: substGo m 0 t) = r ++ substGo m (n - 1) t
  rw [h]

theorem substGo_skip (m : Matcher) :
    ∀ (u t : List Char), substGo m u.length (u ++ t) = substGo m 0 t := by
  intro u
  induction u with
  | nil => intro t; rfl
  | cons c u ih =>
    intro t
    rw [List.cons_append, List.length_cons, substGo_succ]
    exact ih t

theorem subst_nil (m : Matcher) : subst m [] = [] := rfl

/-- If the matcher never fires on any suffix whose characters all satisfy
`ok`, the pass is the identity on strings of `ok` characters. -/
theorem subst_id_of_all (m : Matcher) (ok : Char → Prop)
    (H : ∀ c t, ok c → (∀ x ∈ t, ok x) → m (c :: t) = none) :
    ∀ s : List Char, (∀ x ∈ s, ok x) → subst m s = s := by
  intro s
  induction s with
  | nil => intro _; rfl
  | cons c t ih =>
    intro hs
    have h1 : ok c := hs c (by simp)
    have h2 : ∀ x ∈ t, ok x := fun x hx => hs x (by simp [hx])
    rw [subst, substGo_zero_none m c t (H c t h1 h2)]
    exact congrArg (c :: ·) (ih h2)

/-- Scanning walks through a block `u` on which the matcher never fires at
any start position. -/
theorem subst_walk (m : Matcher) :
    ∀ (u t : List Char), (∀ j, j < u.length → m (u.drop j ++ t) = none) →
      subst m (u ++ t) = u ++ subst m t := by
  intro u
  induction u with
  | nil => intro t _; rfl
  | cons c u ih =>
    intro t H
    have h0 : m (c :: (u ++ t)) = none := H 0 (by simp)
    rw [List.cons_append, subst, substGo_zero_none m c (u ++ t) h0]
    have hrest : ∀ j, j < u.length → m (u.drop j ++ t) = none := by
      intro j hj
      have := H (j + 1) (by simpa using Nat.succ_lt_succ hj)
      simpa using this
    rw [show substGo m 0 (u ++ t) = subst m (u ++ t) from rfl, ih t hrest,
      List.cons_append]

/-! ### Prefix helpers -/

/-- A prefix test fails whenever it already fails inside the first block. -/
theorem pre_append_false :
    ∀ (p u v : List Char), (p.take u.length).isPrefixOf u = false →
      p.isPrefixOf (u ++ v) = false := by
  intro p
  induction p with
  | nil => intro u v h; simp [List.isPrefixOf] at h
  | cons a p ih =>
    intro u v h
    cases u with
    | nil => simp [List.isPrefixOf] at h
    | cons b u' =>
      rw [List.length_cons, List.take_succ_cons, List.isPrefixOf_cons₂] at h
      rw [List.cons_append, List.isPrefixOf_cons₂]
      rcases Bool.and_eq_false_iff.mp h with h' | h'
      · rw [h', Bool.false_and]
      · rw [ih u' v h', Bool.and_false]

theorem isPrefixOf_append_self :
    ∀ (l t : List Char), l.isPrefixOf (l ++ t) = true := by
  intro l
  induction l with
  | nil => intro t; simp
  | cons a l ih => intro t; simp [List.isPrefixOf_cons₂, ih]

theorem isPrefixOf_of_append_isPrefixOf :
    ∀ (a b w : List Char), (a ++ b).isPrefixOf w = true → a.isPrefixOf w = true := by
  intro a
  induction a with
  | nil => intro b w _; simp
  | cons x a ih =>
    intro b w h
    cases w with
    | nil => simp at h
    | cons y w' =>
      rw [List.cons_append, List.isPrefixOf_cons₂, Bool.and_eq_true] at h
      rw [List.isPrefixOf_cons₂, h.1, ih b w' h.2, Bool.and_self]

/-! ### Occurrence counting for literal patterns -/

theorem mRepl_none_of_pre_false (pat rep s : List Char)
    (h : pat.isPrefixOf s = false) : mRepl pat rep s = none := by
  simp [mRepl, h]

theorem replaceAll_id (pat rep : List Char) :
    ∀ s, containsSeq pat s = false → replaceAll pat rep s = s := by
  intro s
  induction s with
  | nil => intro _; rfl
  | cons c t ih =>
    intro h
    rw [containsSeq, Bool.or_eq_false_iff] at h
    rw [replaceAll, subst,
      substGo_zero_none _ c t (mRepl_none_of_pre_false pat rep (c :: t) h.1)]
    exact congrArg (c :: ·) (ih h.2)

theorem containsSeq_false_of_head_free (p0 : Char) (pr : List Char) :
    ∀ s : List Char, (∀ x ∈ s, x ≠ p0) → containsSeq (p0 :: pr) s = false := by
  intro s
  induction s with
  | nil => intro _; rfl
  | cons c t ih =>
    intro hs
    have hc : c ≠ p0 := hs c (by simp)
    rw [containsSeq, Bool.or_eq_false_iff]
    refine ⟨?_, ih (fun x hx => hs x (by simp [hx]))⟩
    rw [List.isPrefixOf_cons₂]
    have : (p0 == c) = false := beq_eq_false_iff_ne.mpr (fun e => hc e.symm)
    rw [this, Bool.false_and]

/-! ### When the individual matchers cannot fire -/

theorem mDD_none_head (c : Char) (t : List Char) (h : c ≠ '$') :
    mDD (c :: t) = none := by simp [mDD, h]

theorem mD_none_head (c : Char) (t : List Char) (h : c ≠ '$') :
    mD (c :: t) = none := by simp [mD, h]

theorem mCmd_none_head (names : List (List Char)) (rep : List Char → List Char)
    (sw : Bool) (c : Char) (t : List Char) (h : c ≠ bs) :
    mCmdNames names rep sw (c :: t) = none := by simp [mCmdNames, h]

theorem mSqrtB_none_head (c : Char) (t : List Char) (h : c ≠ bs) :
    mSqrtB (c :: t) = none := by simp [mSqrtB, h]

theorem mSqrt_none_head (c : Char) (t : List Char) (h : c ≠ bs) :
    mSqrt (c :: t) = none := by simp [mSqrt, h]

theorem mText_none_head (mk : List Char → List Char) (c : Char) (t : List Char)
    (h : c ≠ bs) : mTextWith mk (c :: t) = none := by simp [mTextWith, h]

theorem mFrac_none_head (c : Char) (t : List Char) (h : c ≠ bs) :
    mFrac (c :: t) = none := by simp [mFrac, h]

/-- `^\{...\}` cannot fire when no open brace is around. -/
theorem mSup_none (c : Char) (t : List Char) (_hc : c ≠ obr)
    (ht : ∀ x ∈ t, x ≠ obr) : mSup (c :: t) = none := by
  by_cases h : c = '^'
  · subst h
    cases t with
    | nil => rfl
    | cons d u =>
      have hd : d ≠ obr := ht d (by simp)
      simp [mSup, hd]
  · simp [mSup, h]

/-- `_\{...\}` cannot fire when no open brace is around. -/
theorem mSubSc_none (c : Char) (t : List Char) (_hc : c ≠ obr)
    (ht : ∀ x ∈ t, x ≠ obr) : mSubSc (c :: t) = none := by
  by_cases h : c = '_'
  · subst h
    cases t with
    | nil => rfl
    | cons d u =>
      have hd : d ≠ obr := ht d (by simp)
      simp [mSubSc, hd]
  · simp [mSubSc, h]

theorem mWS_none (c : Char) (t : List Char) (h : pyWS c = false) :
    mWS (c :: t) = none := by simp [mWS, h]

/-! ### Identity of the middle pipeline on inert characters -/

theorem midPipe_id (s : List Char) (hs : ∀ x ∈ s, okMid x) : midPipe s = s := by
  have hbs : ∀ x ∈ s, x ≠ bs := fun x hx => (hs x hx).1
  have hdl : ∀ x ∈ s, x ≠ '$' := fun x hx => (hs x hx).2.1
  have hob : ∀ x ∈ s, x ≠ obr := fun x hx => (hs x hx).2.2.1
  have hcb : ∀ x ∈ s, x ≠ cbr := fun x hx => (hs x hx).2.2.2
  have e3 : subst mDD s = s :=
    subst_id_of_all mDD (· ≠ '$') (fun c t h1 _ => mDD_none_head c t h1) s hdl
  have e4 : subst mD s = s :=
    subst_id_of_all mD (· ≠ '$') (fun c t h1 _ => mD_none_head c t h1) s hdl
  have e5 : subst (mCmdNames funcNames id true) s = s :=
    subst_id_of_all _ (· ≠ bs)
      (fun c t h1 _ => mCmd_none_head funcNames id true c t h1) s hbs
  have e6 : subst (mCmdNames greekNames id false) s = s :=
    subst_id_of_all _ (· ≠ bs)
      (fun c t h1 _ => mCmd_none_head greekNames id false c t h1) s hbs
  have e7 : subst (mCmdNames symNames (fun _ => ['*']) false) s = s :=
    subst_id_of_all _ (· ≠ bs)
      (fun c t h1 _ => mCmd_none_head symNames (fun _ => ['*']) false c t h1) s hbs
  have e8 : replaceAll [bs, 'p', 'm'] ['+', '-'] s = s :=
    replaceAll_id _ _ s (containsSeq_false_of_head_free bs _ s hbs)
  have e9 : replaceAll [bs, 'm', 'p'] ['-', '+'] s = s :=
    replaceAll_id _ _ s (containsSeq_false_of_head_free bs _ s hbs)
  have e10 : subst mSqrtB s = s :=
    subst_id_of_all mSqrtB (· ≠ bs) (fun c t h1 _ => mSqrtB_none_head c t h1) s hbs
  have e11 : subst mSqrt s = s :=
    subst_id_of_all mSqrt (· ≠ bs) (fun c t h1 _ => mSqrt_none_head c t h1) s hbs
  have e12 : subst (mTextWith id) s = s :=
    subst_id_of_all _ (· ≠ bs) (fun c t h1 _ => mText_none_head id c t h1) s hbs
  have e13 : subst mFrac s = s :=
    subst_id_of_all mFrac (· ≠ bs) (fun c t h1 _ => mFrac_none_head c t h1) s hbs
  have e14 : subst mSup s = s :=
    subst_id_of_all mSup (· ≠ obr) (fun c t h1 h2 => mSup_none c t h1 h2) s hob
  have e15 : subst mSubSc s = s :=
    subst_id_of_all mSubSc (· ≠ obr) (fun c t h1 h2 => mSubSc_none c t h1 h2) s hob
  have e16 : replaceAll (bs :: "left".data) [] s = s :=
    replaceAll_id _ _ s (containsSeq_false_of_head_free bs _ s hbs)
  have e17 : replaceAll (bs :: "right".data) [] s = s :=
    replaceAll_id _ _ s (containsSeq_false_of_head_free bs _ s hbs)
  have e18 : replaceAll [obr] [oprn] s = s :=
    replaceAll_id _ _ s (containsSeq_false_of_head_free obr _ s hob)
  have e19 : replaceAll [cbr] [cprn] s = s :=
    replaceAll_id _ _ s (containsSeq_false_of_head_free cbr _ s hcb)
  simp only [midPipe]
  rw [e3, e4, e5, e6, e7, e8, e9, e10, e11, e12, e13, e14, e15, e16, e17, e18, e19]

theorem protectBraces_id (s : List Char)
    (h1 : containsSeq escObr s = false) (h2 : containsSeq escCbr s = false) :
    protectBraces s = s := by
  rw [protectBraces, replaceAll_id _ _ s h1, replaceAll_id _ _ s h2]

theorem restoreBraces_id (s : List Char)
    (h1 : containsSeq laceT s = false) (h2 : containsSeq raceT s = false) :
    restoreBraces s = s := by
  rw [restoreBraces, replaceAll_id _ _ s h1, replaceAll_id _ _ s h2]

/-! ### More engine helpers -/

theorem isPrefixOf_cons_false_of_head_ne (p0 : Char) (pr : List Char)
    (c : Char) (t : List Char) (h : c ≠ p0) :
    (p0 :: pr).isPrefixOf (c :: t) = false := by
  rw [List.isPrefixOf_cons₂, beq_eq_false_iff_ne.mpr (fun e => h e.symm),
    Bool.false_and]

/-- A literal replacement fires exactly at the start of its own pattern. -/
theorem replaceAll_block (p0 : Char) (pr rep t : List Char) :
    replaceAll (p0 :: pr) rep ((p0 :: pr) ++ t) = rep ++ replaceAll (p0 :: pr) rep t := by
  have hm : mRepl (p0 :: pr) rep ((p0 :: pr) ++ t) = some (rep, (p0 :: pr).length) := by
    simp [mRepl, isPrefixOf_append_self]
  rw [List.cons_append, replaceAll, subst,
    substGo_zero_some _ p0 (pr ++ t) rep (p0 :: pr).length hm]
  rw [List.length_cons, Nat.add_sub_cancel, substGo_skip]
  rfl

/-! ### Streams of plain characters and escaped braces -/

theorem itemOK_pch {c : Char} (h : itemOK (BItem.pch c)) :
    c ≠ bs ∧ c ≠ '$' ∧ c ≠ '_' ∧ c ≠ obr ∧ c ≠ cbr := by
  simp [itemOK, itemOKb, not_or] at h
  tauto

/-- Line 37, first replace, on a stream. -/
theorem protect_step1 : ∀ its : List BItem, (∀ i ∈ its, itemOK i) →
    replaceAll escObr laceT (rIn its) = midA its := by
  intro its
  induction its with
  | nil => intro _; rfl
  | cons i rest ih =>
    intro hOK
    have hr : ∀ j ∈ rest, itemOK j := fun j hj => hOK j (List.mem_cons_of_mem _ hj)
    cases i with
    | pch c =>
      have hc := (itemOK_pch (hOK (BItem.pch c) (List.mem_cons_self _ _))).1
      show replaceAll escObr laceT (c :: rIn rest) = c :: midA rest
      have hnone : mRepl escObr laceT (c :: rIn rest) = none :=
        mRepl_none_of_pre_false _ _ _ (isPrefixOf_cons_false_of_head_ne bs [obr] c _ hc)
      rw [replaceAll, subst, substGo_zero_none _ c _ hnone]
      exact congrArg (c :: ·) (ih hr)
    | lb =>
      show replaceAll escObr laceT (escObr ++ rIn rest) = laceT ++ midA rest
      rw [show escObr = bs :: [obr] from rfl, replaceAll_block]
      exact congrArg (laceT ++ ·) (ih hr)
    | rb =>
      show replaceAll escObr laceT ([bs, cbr] ++ rIn rest) = bs :: cbr :: midA rest
      rw [replaceAll, subst_walk _ [bs, cbr] _ ?_]
      · exact congrArg ([bs, cbr] ++ ·) (ih hr)
      · intro j hj
        simp only [List.length_cons, List.length_nil] at hj
        interval_cases j <;>
          (apply mRepl_none_of_pre_false; apply pre_append_false; decide)

/-- Line 37, second replace, on a stream. -/
theorem protect_step2 : ∀ its : List BItem, (∀ i ∈ its, itemOK i) →
    replaceAll escCbr raceT (midA its) = midB its := by
  intro its
  induction its with
  | nil => intro _; rfl
  | cons i rest ih =>
    intro hOK
    have hr : ∀ j ∈ rest, itemOK j := fun j hj => hOK j (List.mem_cons_of_mem _ hj)
    cases i with
    | pch c =>
      have hc := (itemOK_pch (hOK (BItem.pch c) (List.mem_cons_self _ _))).1
      show replaceAll escCbr raceT (c :: midA rest) = c :: midB rest
      have hnone : mRepl escCbr raceT (c :: midA rest) = none :=
        mRepl_none_of_pre_false _ _ _ (isPrefixOf_cons_false_of_head_ne bs [cbr] c _ hc)
      rw [replaceAll, subst, substGo_zero_none _ c _ hnone]
      exact congrArg (c :: ·) (ih hr)
    | lb =>
      show replaceAll escCbr raceT (laceT ++ midA rest) = laceT ++ midB rest
      rw [replaceAll, subst_walk _ laceT _ ?_]
      · exact congrArg (laceT ++ ·) (ih hr)
      · intro j hj
        rw [show laceT.length = 14 from rfl] at hj
        interval_cases j <;>
          (apply mRepl_none_of_pre_false; apply pre_append_false; decide)
    | rb =>
      show replaceAll escCbr raceT (escCbr ++ midA rest) = raceT ++ midB rest
      rw [show escCbr = bs :: [cbr] from rfl, replaceAll_block]
      exact congrArg (raceT ++ ·) (ih hr)

/-- Every character of the protected stream is inert for `midPipe`. -/
theorem midB_ok : ∀ its : List BItem, (∀ i ∈ its, itemOK i) →
    ∀ x ∈ midB its, okMid x := by
  intro its
  induction its with
  | nil => intro _ x hx; simp [midB] at hx
  | cons i rest ih =>
    intro hOK
    have hr : ∀ j ∈ rest, itemOK j := fun j hj => hOK j (List.mem_cons_of_mem _ hj)
    cases i with
    | pch c =>
      intro x hx
      rcases (by simpa [midB] using hx : x = c ∨ x ∈ midB rest) with h | h
      · subst h
        obtain ⟨a, b, _, d, e⟩ := itemOK_pch (hOK (BItem.pch x) (List.mem_cons_self _ _))
        exact ⟨a, b, d, e⟩
      · exact ih hr x h
    | lb =>
      intro x hx
      rcases (by simpa [midB] using hx : x ∈ laceT ∨ x ∈ midB rest) with h | h
      · revert h
        have : ∀ y ∈ laceT, okMid y := by simp only [okMid]; decide
        exact this x
      · exact ih hr x h
    | rb =>
      intro x hx
      rcases (by simpa [midB] using hx : x ∈ raceT ∨ x ∈ midB rest) with h | h
      · revert h
        have : ∀ y ∈ raceT, okMid y := by simp only [okMid]; decide
        exact this x
      · exact ih hr x h

/-! ### The protected stream cannot spoof the open sentinel -/

theorem noSpoof_u : ∀ its : List BItem, (∀ i ∈ its, itemOK i) →
    (['_', 'B', 'R', 'A', 'C', 'E', '_', '_'] : List Char).isPrefixOf (midB its) = false := by
  intro its
  induction its with
  | nil => intro _; rfl
  | cons i rest ih =>
    intro hOK
    have hr : ∀ j ∈ rest, itemOK j := fun j hj => hOK j (List.mem_cons_of_mem _ hj)
    cases i with
    | pch c =>
      have hc := (itemOK_pch (hOK (BItem.pch c) (List.mem_cons_self _ _))).2.2.1
      exact isPrefixOf_cons_false_of_head_ne '_' _ c _ hc
    | lb =>
      show _ = false
      apply pre_append_false
      decide
    | rb =>
      show _ = false
      apply pre_append_false
      decide

theorem noSpoof_e : ∀ its : List BItem, (∀ i ∈ its, itemOK i) →
    (['E', '_', 'B', 'R', 'A', 'C', 'E', '_', '_'] : List Char).isPrefixOf (midB its) = false := by
  intro its
  induction its with
  | nil => intro _; rfl
  | cons i rest _ =>
    intro hOK
    have hr : ∀ j ∈ rest, itemOK j := fun j hj => hOK j (List.mem_cons_of_mem _ hj)
    cases i with
    | pch c =>
      by_cases hcE : c = 'E'
      · subst hcE
        show (['E', '_', 'B', 'R', 'A', 'C', 'E', '_', '_'] : List Char).isPrefixOf
          ('E' :: midB rest) = false
        rw [List.isPrefixOf_cons₂, beq_self_eq_true, Bool.true_and]
        exact noSpoof_u rest hr
      · exact isPrefixOf_cons_false_of_head_ne 'E' _ c _ hcE
    | lb => apply pre_append_false; decide
    | rb => apply pre_append_false; decide

theorem noSpoof_c : ∀ its : List BItem, (∀ i ∈ its, itemOK i) →
    (['C', 'E', '_', 'B', 'R', 'A', 'C', 'E', '_', '_'] : List Char).isPrefixOf (midB its) = false := by
  intro its
  induction its with
  | nil => intro _; rfl
  | cons i rest _ =>
    intro hOK
    have hr : ∀ j ∈ rest, itemOK j := fun j hj => hOK j (List.mem_cons_of_mem _ hj)
    cases i with
    | pch c =>
      by_cases hcE : c = 'C'
      · subst hcE
        show (['C', 'E', '_', 'B', 'R', 'A', 'C', 'E', '_', '_'] : List Char).isPrefixOf
          ('C' :: midB rest) = false
        rw [List.isPrefixOf_cons₂, beq_self_eq_true, Bool.true_and]
        exact noSpoof_e rest hr
      · exact isPrefixOf_cons_false_of_head_ne 'C' _ c _ hcE
    | lb => apply pre_append_false; decide
    | rb => apply pre_append_false; decide

theorem noSpoof_a : ∀ its : List BItem, (∀ i ∈ its, itemOK i) →
    (['A', 'C', 'E', '_', 'B', 'R', 'A', 'C', 'E', '_', '_'] : List Char).isPrefixOf (midB its) = false := by
  intro its
  induction its with
  | nil => intro _; rfl
  | cons i rest _ =>
    intro hOK
    have hr : ∀ j ∈ rest, itemOK j := fun j hj => hOK j (List.mem_cons_of_mem _ hj)
    cases i with
    | pch c =>
      by_cases hcE : c = 'A'
      · subst hcE
        show (['A', 'C', 'E', '_', 'B', 'R', 'A', 'C', 'E', '_', '_'] : List Char).isPrefixOf
          ('A' :: midB rest) = false
        rw [List.isPrefixOf_cons₂, beq_self_eq_true, Bool.true_and]
        exact noSpoof_c rest hr
      · exact isPrefixOf_cons_false_of_head_ne 'A' _ c _ hcE
    | lb => apply pre_append_false; decide
    | rb => apply pre_append_false; decide

theorem noSpoof_l : ∀ its : List BItem, (∀ i ∈ its, itemOK i) →
    (['L', 'A', 'C', 'E', '_', 'B', 'R', 'A', 'C', 'E', '_', '_'] : List Char).isPrefixOf (midB its) = false := by
  intro its
  induction its with
  | nil => intro _; rfl
  | cons i rest _ =>
    intro hOK
    have hr : ∀ j ∈ rest, itemOK j := fun j hj => hOK j (List.mem_cons_of_mem _ hj)
    cases i with
    | pch c =>
      by_cases hcE : c = 'L'
      · subst hcE
        show (['L', 'A', 'C', 'E', '_', 'B', 'R', 'A', 'C', 'E', '_', '_'] : List Char).isPrefixOf
          ('L' :: midB rest) = false
        rw [List.isPrefixOf_cons₂, beq_self_eq_true, Bool.true_and]
        exact noSpoof_a rest hr
      · exact isPrefixOf_cons_false_of_head_ne 'L' _ c _ hcE
    | lb => apply pre_append_false; decide
    | rb => apply pre_append_false; decide

theorem noSpoof_tl : ∀ its : List BItem, (∀ i ∈ its, itemOK i) →
    (['_', 'L', 'A', 'C', 'E', '_', 'B', 'R', 'A', 'C', 'E', '_', '_'] : List Char).isPrefixOf (midB its) = false := by
  intro its
  induction its with
  | nil => intro _; rfl
  | cons i rest _ =>
    intro hOK
    cases i with
    | pch c =>
      have hc := (itemOK_pch (hOK (BItem.pch c) (List.mem_cons_self _ _))).2.2.1
      exact isPrefixOf_cons_false_of_head_ne '_' _ c _ hc
    | lb => apply pre_append_false; decide
    | rb => apply pre_append_false; decide

/-! ### Line 72 on the protected stream -/

theorem restore_step1 : ∀ its : List BItem, (∀ i ∈ its, itemOK i) →
    replaceAll laceT [obr] (midB its) = midC its := by
  intro its
  induction its with
  | nil => intro _; rfl
  | cons i rest ih =>
    intro hOK
    have hr : ∀ j ∈ rest, itemOK j := fun j hj => hOK j (List.mem_cons_of_mem _ hj)
    cases i with
    | pch c =>
      have hc := (itemOK_pch (hOK (BItem.pch c) (List.mem_cons_self _ _))).2.2.1
      show replaceAll laceT [obr] (c :: midB rest) = c :: midC rest
      have hnone : mRepl laceT [obr] (c :: midB rest) = none :=
        mRepl_none_of_pre_false _ _ _ (isPrefixOf_cons_false_of_head_ne '_'
          ['_', 'L', 'A', 'C', 'E', '_', 'B', 'R', 'A', 'C', 'E', '_', '_'] c _ hc)
      rw [replaceAll, subst, substGo_zero_none _ c _ hnone]
      exact congrArg (c :: ·) (ih hr)
    | lb =>
      show replaceAll laceT [obr] (laceT ++ midB rest) = obr :: midC rest
      have e : replaceAll laceT [obr] (laceT ++ midB rest) =
          [obr] ++ replaceAll laceT [obr] (midB rest) :=
        replaceAll_block '_' ['_', 'L', 'A', 'C', 'E', '_', 'B', 'R', 'A', 'C', 'E', '_', '_']
          [obr] (midB rest)
      rw [e, ih hr]
      rfl
    | rb =>
      show replaceAll laceT [obr] (raceT ++ midB rest) = raceT ++ midC rest
      rw [replaceAll, subst_walk _ raceT _ ?_]
      · exact congrArg (raceT ++ ·) (ih hr)
      · intro j hj
        rw [show raceT.length = 14 from rfl] at hj
        interval_cases j
        · apply mRepl_none_of_pre_false; apply pre_append_false; decide
        · apply mRepl_none_of_pre_false; apply pre_append_false; decide
        · apply mRepl_none_of_pre_false; apply pre_append_false; decide
        · apply mRepl_none_of_pre_false; apply pre_append_false; decide
        · apply mRepl_none_of_pre_false; apply pre_append_false; decide
        · apply mRepl_none_of_pre_false; apply pre_append_false; decide
        · apply mRepl_none_of_pre_false; apply pre_append_false; decide
        · apply mRepl_none_of_pre_false; apply pre_append_false; decide
        · apply mRepl_none_of_pre_false; apply pre_append_false; decide
        · apply mRepl_none_of_pre_false; apply pre_append_false; decide
        · apply mRepl_none_of_pre_false; apply pre_append_false; decide
        · apply mRepl_none_of_pre_false; apply pre_append_false; decide
        · apply mRepl_none_of_pre_false
          show laceT.isPrefixOf ('_' :: '_' :: midB rest) = false
          show (['_', '_', 'L', 'A', 'C', 'E', '_', 'B', 'R', 'A', 'C', 'E', '_', '_'] :
            List Char).isPrefixOf ('_' :: '_' :: midB rest) = false
          rw [List.isPrefixOf_cons₂, beq_self_eq_true, Bool.true_and,
            List.isPrefixOf_cons₂, beq_self_eq_true, Bool.true_and]
          exact noSpoof_l rest hr
        · apply mRepl_none_of_pre_false
          show laceT.isPrefixOf ('_' :: midB rest) = false
          show (['_', '_', 'L', 'A', 'C', 'E', '_', 'B', 'R', 'A', 'C', 'E', '_', '_'] :
            List Char).isPrefixOf ('_' :: midB rest) = false
          rw [List.isPrefixOf_cons₂, beq_self_eq_true, Bool.true_and]
          exact noSpoof_tl rest hr

theorem restore_step2 : ∀ its : List BItem, (∀ i ∈ its, itemOK i) →
    replaceAll raceT [cbr] (midC its) = rOut its := by
  intro its
  induction its with
  | nil => intro _; rfl
  | cons i rest ih =>
    intro hOK
    have hr : ∀ j ∈ rest, itemOK j := fun j hj => hOK j (List.mem_cons_of_mem _ hj)
    cases i with
    | pch c =>
      have hc := (itemOK_pch (hOK (BItem.pch c) (List.mem_cons_self _ _))).2.2.1
      show replaceAll raceT [cbr] (c :: midC rest) = c :: rOut rest
      have hnone : mRepl raceT [cbr] (c :: midC rest) = none :=
        mRepl_none_of_pre_false _ _ _ (isPrefixOf_cons_false_of_head_ne '_'
          ['_', 'R', 'A', 'C', 'E', '_', 'B', 'R', 'A', 'C', 'E', '_', '_'] c _ hc)
      rw [replaceAll, subst, substGo_zero_none _ c _ hnone]
      exact congrArg (c :: ·) (ih hr)
    | lb =>
      show replaceAll raceT [cbr] (obr :: midC rest) = obr :: rOut rest
      have hnone : mRepl raceT [cbr] (obr :: midC rest) = none :=
        mRepl_none_of_pre_false _ _ _ (isPrefixOf_cons_false_of_head_ne '_'
          ['_', 'R', 'A', 'C', 'E', '_', 'B', 'R', 'A', 'C', 'E', '_', '_'] obr _ (by decide))
      rw [replaceAll, subst, substGo_zero_none _ obr _ hnone]
      exact congrArg (obr :: ·) (ih hr)
    | rb =>
      show replaceAll raceT [cbr] (raceT ++ midC rest) = cbr :: rOut rest
      have e : replaceAll raceT [cbr] (raceT ++ midC rest) =
          [cbr] ++ replaceAll raceT [cbr] (midC rest) :=
        replaceAll_block '_' ['_', 'R', 'A', 'C', 'E', '_', 'B', 'R', 'A', 'C', 'E', '_', '_']
          [cbr] (midC rest)
      rw [e, ih hr]
      rfl

/-- The whole `latex_to_plaintext` pipeline on a stream of inert plain
characters and escaped braces: every escaped brace comes out as the
corresponding literal brace, and the rest is whitespace-normalized. -/
theorem stream_pipeline (its : List BItem) (hOK : ∀ i ∈ its, itemOK i) :
    ltp (rIn its) = normWS (rOut its) := by
  have h1 : protectBraces (rIn its) = midB its := by
    rw [protectBraces, protect_step1 its hOK, protect_step2 its hOK]
  have h2 : midPipe (midB its) = midB its := midPipe_id _ (midB_ok its hOK)
  have h3 : restoreBraces (midB its) = rOut its := by
    rw [restoreBraces, restore_step1 its hOK, restore_step2 its hOK]
  show normWS (restoreBraces (midPipe (protectBraces (rIn its)))) = normWS (rOut its)
  rw [h1, h2, h3]

/-! ### Claim theorems -/

/-- C1: the claim (and the repository's own test
`test_sanitizer_escapes_plain_text_specials`) says `sanitize_for_mathtext`
inserts a backslash before each unescaped `%`, `&`, `#`; the code has no
such step.  At the test's own input the code returns the unescaped string,
differing from the test's expected value. -/
theorem C1_sanitizer_no_escaping :
    sanitize_for_mathtext "Save 50% & more #1" = "$Save 50% & more #1$" ∧
    sanitize_for_mathtext "Save 50% & more #1" ≠ "$Save 50\\% \\& more \\#1$" := by
  decide

/-- C2: the sanitizer's result is the transformed core wrapped in exactly
one pair of `$` unless the delimiter-stripped input already starts and ends
with `$` or the transformed core contains a newline, in which case the core
is returned unwrapped. -/
theorem C2_wrapped_once (s : String) :
    (sanAlready s.data = false ∧ (sanTransformed s.data).contains '\n' = false →
      (sanitize_for_mathtext s).data = '$' :: sanTransformed s.data ++ ['$']) ∧
    (sanAlready s.data = true ∨ (sanTransformed s.data).contains '\n' = true →
      (sanitize_for_mathtext s).data = sanTransformed s.data) := by
  constructor
  · intro h
    have h2 : '\n' ∉ sanTransformed s.data := by simpa using h.2
    show sanitizeList s.data = _
    simp [sanitizeList, h.1, h2]
  · intro h
    show sanitizeList s.data = _
    rcases h with h | h
    · simp [sanitizeList, h]
    · have h2 : '\n' ∈ sanTransformed s.data := by simpa using h
      simp [sanitizeList, h2]

theorem C2_wrapped_once_witness :
    (sanAlready ("x+y" : String).data = false ∧
      (sanTransformed ("x+y" : String).data).contains '\n' = false) ∧
    (sanitize_for_mathtext "x+y").data = '$' :: sanTransformed ("x+y" : String).data ++ ['$'] ∧
    sanAlready ("$x$" : String).data = true ∧
    (sanitize_for_mathtext "$x$").data = sanTransformed ("$x$" : String).data :=
  ⟨⟨by decide, by decide⟩,
   (C2_wrapped_once "x+y").1 ⟨by decide, by decide⟩,
   by decide,
   (C2_wrapped_once "$x$").2 (Or.inl (by decide))⟩

/-- C3 counterexample: the input `__LACE_BRACE\}` contains the escaped
close brace `\}`, but the output `{RACE_BRACE__` contains no close brace at
all: the text collides with the internal sentinel and the escaped brace is
lost, falsifying the claim at this input. -/
theorem C3_counterexample :
    containsSeq escCbr ("__LACE_BRACE\\\x7d" : String).data = true ∧
    latex_to_plaintext "__LACE_BRACE\\\x7d" = "\x7bRACE_BRACE__" ∧
    cbr ∉ (latex_to_plaintext "__LACE_BRACE\\\x7d").data := by
  decide

/-- C3 amended: on any input made of escaped braces and plain characters
that are none of `\`, `$`, `_`, `{`, `}` (so the input cannot collide with
the internal sentinels), every escaped brace appears in the output as the
corresponding literal brace — never a parenthesis — and the rest is only
whitespace-normalized. -/
theorem C3_amended (its : List BItem) (h : its.all itemOKb = true) :
    latex_to_plaintext ⟨rIn its⟩ = ⟨normWS (rOut its)⟩ := by
  have hOK : ∀ i ∈ its, itemOK i := fun i hi => List.all_eq_true.mp h i hi
  show (⟨ltp (rIn its)⟩ : String) = ⟨normWS (rOut its)⟩
  exact congrArg String.mk (stream_pipeline its hOK)

theorem C3_amended_witness :
    ([BItem.lb, BItem.pch 'a', BItem.rb].all itemOKb = true) ∧
    latex_to_plaintext "\\\x7ba\\\x7d" = "\x7ba\x7d" := by
  refine ⟨by decide, ?_⟩
  have h := C3_amended [BItem.lb, BItem.pch 'a', BItem.rb] (by decide)
  calc latex_to_plaintext "\\\x7ba\\\x7d"
      = latex_to_plaintext ⟨rIn [BItem.lb, BItem.pch 'a', BItem.rb]⟩ :=
        congrArg latex_to_plaintext (by decide)
    _ = ⟨normWS (rOut [BItem.lb, BItem.pch 'a', BItem.rb])⟩ := h
    _ = "\x7ba\x7d" := by decide

/-- C4 counterexample: the protect/restore pair of lines 37 and 72 maps
`\{` to `{`, so its composition is not the identity even on the simplest
escaped-brace string. -/
theorem C4_counterexample :
    restoreBraces (protectBraces [bs, obr]) = [obr] ∧
    restoreBraces (protectBraces [bs, obr]) ≠ [bs, obr] := by
  decide

/-- C4 amended: on every string consisting only of escaped-brace sequences,
the protect/restore composition is the brace-unescaping map, sending each
`\{` to `{` and each `\}` to `}` (not the identity). -/
theorem C4_amended (eb : List Bool) :
    restoreBraces (protectBraces (rIn (escRender eb))) = rOut (escRender eb) := by
  have hOK : ∀ i ∈ escRender eb, itemOK i := by
    intro i hi
    rcases List.mem_map.mp hi with ⟨b, _, rfl⟩
    cases b <;> rfl
  rw [protectBraces, protect_step1 _ hOK, protect_step2 _ hOK, restoreBraces,
    restore_step1 _ hOK, restore_step2 _ hOK]

/-- C5: both core functions are total Lean functions — they are defined and
return a string on every input, including the empty string and pure
whitespace, and `latex_to_plaintext` can be re-applied to its own output. -/
theorem C5_total :
    (∀ s : String, ∃ t : String, latex_to_plaintext s = t ∧
      ∃ u : String, latex_to_plaintext t = u) ∧
    (∀ s : String, ∃ t : String, sanitize_for_mathtext s = t) ∧
    latex_to_plaintext "" = "" ∧ latex_to_plaintext "   " = "" :=
  ⟨fun _ => ⟨_, rfl, _, rfl⟩, fun _ => ⟨_, rfl⟩, by decide, by decide⟩

/-- C6 counterexample: `__LACE_BRACE__` contains no LaTeX-specific syntax
(no escape character, no brace, no `$`, no `^{`/`_{`), yet the output is
`{` rather than the whitespace-normalized input. -/
theorem C6_counterexample :
    (∀ x ∈ ("__LACE_BRACE__" : String).data,
      x ≠ bs ∧ x ≠ '$' ∧ x ≠ obr ∧ x ≠ cbr) ∧
    normWS ("__LACE_BRACE__" : String).data = ("__LACE_BRACE__" : String).data ∧
    latex_to_plaintext "__LACE_BRACE__" = "\x7b" ∧
    latex_to_plaintext "__LACE_BRACE__" ≠ "__LACE_BRACE__" := by
  decide

/-- C6 amended: for strings with no escape character, no `$`, no braces
(hence no `^{`/`_{` forms) and, additionally, no occurrence of either
internal sentinel `__LACE_BRACE__`/`__RACE_BRACE__`, `latex_to_plaintext`
is exactly whitespace normalization. -/
theorem C6_amended (s : String)
    (h1 : s.data.all (fun c => !(c = bs || c = '$' || c = obr || c = cbr)) = true)
    (h2 : containsSeq laceT s.data = false)
    (h3 : containsSeq raceT s.data = false) :
    latex_to_plaintext s = ⟨normWS s.data⟩ := by
  have hall : ∀ x ∈ s.data, okMid x := by
    intro x hx
    have hx9 := List.all_eq_true.mp h1 x hx
    simp [not_or] at hx9
    show x ≠ bs ∧ x ≠ '$' ∧ x ≠ obr ∧ x ≠ cbr
    tauto
  have hbs : ∀ x ∈ s.data, x ≠ bs := fun x hx => (hall x hx).1
  have hprot : protectBraces s.data = s.data :=
    protectBraces_id _ (containsSeq_false_of_head_free bs [obr] _ hbs)
      (containsSeq_false_of_head_free bs [cbr] _ hbs)
  have hmid : midPipe s.data = s.data := midPipe_id _ hall
  have hrest : restoreBraces s.data = s.data := restoreBraces_id _ h2 h3
  show (⟨ltp s.data⟩ : String) = ⟨normWS s.data⟩
  rw [show ltp s.data = normWS (restoreBraces (midPipe (protectBraces s.data))) from rfl,
    hprot, hmid, hrest]

theorem C6_amended_witness :
    (("hello  world" : String).data.all
      (fun c => !(c = bs || c = '$' || c = obr || c = cbr)) = true) ∧
    containsSeq laceT ("hello  world" : String).data = false ∧
    containsSeq raceT ("hello  world" : String).data = false ∧
    latex_to_plaintext "hello  world" = "hello world" := by
  refine ⟨by decide, by decide, by decide, ?_⟩
  rw [C6_amended "hello  world" (by decide) (by decide) (by decide)]
  decide

/-- C7: the nested-fraction scenario of the test suite: the inner `\frac`
is rewritten, the outer one keeps its escape prefix and its braces are
flattened to parentheses. -/
theorem C7_nested_frac :
    latex_to_plaintext "\\frac\x7b1+\\frac\x7b1\x7d\x7bx\x7d\x7d\x7by\x7d" =
      "\\frac(1+(1)/(x))(y)" := by
  decide

/-- C8: the nested-sqrt scenario of the test suite: the square root is
rewritten to `sqrt(...)`, the fraction inside keeps its escape prefix and
its braces are flattened to parentheses. -/
theorem C8_nested_sqrt :
    latex_to_plaintext "\\sqrt\x7b\\frac\x7ba\x7d\x7bb\x7d\x7d" =
      "sqrt(\\frac(a)(b))" := by
  decide

/-- C9 counterexample: both example commands named by the claim lose their
escape prefix: the table entries `ln` and `pi` match as prefixes of
`lnot` and `pink` (the regexes have no word boundary). -/
theorem C9_counterexample :
    latex_to_plaintext "\\lnot" = "lnot" ∧ latex_to_plaintext "\\lnot" ≠ "\\lnot" ∧
    latex_to_plaintext "\\pink" = "pink" ∧ latex_to_plaintext "\\pink" ≠ "\\pink" := by
  decide

/-- C10: the fixed human-readable sentinels leak: the plain inputs
`__LACE_BRACE__` and `__RACE_BRACE__` (which contain no backslash and no
brace) are rewritten to single literal braces. -/
theorem C10_sentinel_leak :
    latex_to_plaintext "__LACE_BRACE__" = "\x7b" ∧
    latex_to_plaintext "__RACE_BRACE__" = "\x7d" ∧
    (∀ x ∈ ("__LACE_BRACE__" : String).data, x ≠ bs ∧ x ≠ obr ∧ x ≠ cbr) ∧
    (∀ x ∈ ("__RACE_BRACE__" : String).data, x ≠ bs ∧ x ≠ obr ∧ x ≠ cbr) := by
  decide

/-! ### Helpers for commands outside the rewrite tables -/

theorem dropWhile_id_of_head (p : Char → Bool) (s : List Char)
    (h : ∀ c ∈ s, p c = false) : s.dropWhile p = s := by
  cases s with
  | nil => rfl
  | cons c t =>
    rw [List.dropWhile_cons, h c (List.mem_cons_self _ _)]
    simp

theorem stripWS_id (s : List Char) (h : ∀ c ∈ s, pyWS c = false) : stripWS s = s := by
  rw [stripWS, dropWhile_id_of_head pyWS s h,
    dropWhile_id_of_head pyWS s.reverse (fun c hc => h c (List.mem_reverse.mp hc)),
    List.reverse_reverse]

theorem normWS_id (s : List Char) (h : ∀ c ∈ s, pyWS c = false) : normWS s = s := by
  have h1 : subst mWS s = s :=
    subst_id_of_all mWS (fun c => pyWS c = false) (fun c t hc _ => mWS_none c t hc) s h
  rw [normWS, h1, stripWS_id s h]

theorem subst_cons_id (m : Matcher) (c : Char) (t : List Char)
    (h1 : m (c :: t) = none) (h2 : subst m t = t) : subst m (c :: t) = c :: t := by
  rw [subst, substGo_zero_none _ _ _ h1]
  exact congrArg (c :: ·) h2

theorem containsSeq_cons_false (pat : List Char) (c : Char) (t : List Char)
    (h1 : pat.isPrefixOf (c :: t) = false) (h2 : containsSeq pat t = false) :
    containsSeq pat (c :: t) = false := by
  rw [containsSeq, h1, h2]
  rfl

theorem firstPre_none (names : List (List Char)) (t : List Char)
    (h : ∀ nm ∈ names, nm.isPrefixOf t = false) : firstPre names t = none := by
  rw [firstPre, List.find?_eq_none]
  intro x hx
  simp [h x hx]

theorem singleton_pre_false (a : Char) (w : List Char) (h : ∀ c ∈ w, c ≠ a) :
    ([a] : List Char).isPrefixOf w = false := by
  cases w with
  | nil => rfl
  | cons c t => exact isPrefixOf_cons_false_of_head_ne a [] c t (h c (List.mem_cons_self _ _))

/-- Facts about a lowercase ASCII letter: it is none of the characters any
pipeline step keys on, and it is not whitespace. -/
theorem lower_facts (c : Char) (h1 : 'a' ≤ c) (h2 : c ≤ 'z') :
    c ≠ bs ∧ c ≠ '$' ∧ c ≠ obr ∧ c ≠ cbr ∧ c ≠ '_' ∧ pyWS c = false := by
  refine ⟨?_, ?_, ?_, ?_, ?_, ?_⟩
  · intro e; subst e; exact absurd h1 (by decide)
  · intro e; subst e; exact absurd h1 (by decide)
  · intro e; subst e; exact absurd h2 (by decide)
  · intro e; subst e; exact absurd h2 (by decide)
  · intro e; subst e; exact absurd h1 (by decide)
  · have hs : c ≠ ' ' := fun e => by subst e; exact absurd h1 (by decide)
    have ht : c ≠ '\t' := fun e => by subst e; exact absurd h1 (by decide)
    have hn : c ≠ '\n' := fun e => by subst e; exact absurd h1 (by decide)
    have hcr : c ≠ '\x0d' := fun e => by subst e; exact absurd h1 (by decide)
    have hv : c ≠ '\x0b' := fun e => by subst e; exact absurd h1 (by decide)
    have hf : c ≠ '\x0c' := fun e => by subst e; exact absurd h1 (by decide)
    simp [pyWS, hs, ht, hn, hcr, hv, hf]

/-- C9 amended: an escaped command `\w` with a lowercase name passes
through `latex_to_plaintext` unchanged, escape prefix included, provided no
rewrite-table name is a prefix of `w`.  (The claim's own examples `\lnot`
and `\pink` violate that proviso — `ln` and `pi` are prefixes — and lose
their backslash.) -/
theorem C9_amended (w : List Char)
    (hlw : w.all (fun c => 'a' ≤ c && c ≤ 'z') = true)
    (hpre : tableNames.all (fun nm => !(nm.isPrefixOf w)) = true) :
    latex_to_plaintext ⟨bs :: w⟩ = ⟨bs :: w⟩ := by
  have hlow : ∀ c ∈ w, 'a' ≤ c ∧ c ≤ 'z' := by
    intro c hc
    have := List.all_eq_true.mp hlw c hc
    simpa using this
  have hwf : ∀ c ∈ w, c ≠ bs ∧ c ≠ '$' ∧ c ≠ obr ∧ c ≠ cbr ∧ c ≠ '_' ∧ pyWS c = false :=
    fun c hc => lower_facts c (hlow c hc).1 (hlow c hc).2
  have hA : ∀ nm ∈ tableNames, nm.isPrefixOf w = false := by
    intro nm hnm
    have := List.all_eq_true.mp hpre nm hnm
    simpa using this
  have hfree_bs : ∀ x ∈ w, x ≠ bs := fun c hc => (hwf c hc).1
  have hfree_dl : ∀ x ∈ bs :: w, x ≠ '$' := by
    intro x hx
    rcases List.mem_cons.mp hx with rfl | h
    · decide
    · exact (hwf x h).2.1
  have hfree_ob : ∀ x ∈ bs :: w, x ≠ obr := by
    intro x hx
    rcases List.mem_cons.mp hx with rfl | h
    · decide
    · exact (hwf x h).2.2.1
  have hfree_cb : ∀ x ∈ bs :: w, x ≠ cbr := by
    intro x hx
    rcases List.mem_cons.mp hx with rfl | h
    · decide
    · exact (hwf x h).2.2.2.1
  have hfree_us : ∀ x ∈ bs :: w, x ≠ '_' := by
    intro x hx
    rcases List.mem_cons.mp hx with rfl | h
    · decide
    · exact (hwf x h).2.2.2.2.1
  have hfree_ws : ∀ x ∈ bs :: w, pyWS x = false := by
    intro x hx
    rcases List.mem_cons.mp hx with rfl | h
    · decide
    · exact (hwf x h).2.2.2.2.2
  have tail_bs : ∀ (m : Matcher),
      (∀ c t, c ≠ bs → (∀ x ∈ t, x ≠ bs) → m (c :: t) = none) → subst m w = w :=
    fun m H => subst_id_of_all m (· ≠ bs) H w hfree_bs
  -- table membership
  have mFN : ∀ nm ∈ funcNames, nm ∈ tableNames :=
    fun nm h => List.mem_append_left _ (List.mem_append_left _
      (List.mem_append_left _ h))
  have mGN : ∀ nm ∈ greekNames, nm ∈ tableNames :=
    fun nm h => List.mem_append_left _ (List.mem_append_left _
      (List.mem_append_right _ h))
  have mSN : ∀ nm ∈ symNames, nm ∈ tableNames :=
    fun nm h => List.mem_append_left _ (List.mem_append_right _ h)
  have mRest : ∀ nm ∈ ["pm".data, "mp".data, "sqrt".data, "text".data,
      "frac".data, "left".data, "right".data], nm ∈ tableNames :=
    fun nm h => List.mem_append_right _ h
  -- protection step is inert
  have hprot : protectBraces (bs :: w) = bs :: w := by
    have k1 : containsSeq escObr (bs :: w) = false := by
      apply containsSeq_cons_false
      · show (bs :: [obr] : List Char).isPrefixOf (bs :: w) = false
        rw [List.isPrefixOf_cons₂, beq_self_eq_true, Bool.true_and]
        exact singleton_pre_false obr w (fun c hc => (hwf c hc).2.2.1)
      · exact containsSeq_false_of_head_free bs [obr] w hfree_bs
    have k2 : containsSeq escCbr (bs :: w) = false := by
      apply containsSeq_cons_false
      · show (bs :: [cbr] : List Char).isPrefixOf (bs :: w) = false
        rw [List.isPrefixOf_cons₂, beq_self_eq_true, Bool.true_and]
        exact singleton_pre_false cbr w (fun c hc => (hwf c hc).2.2.2.1)
      · exact containsSeq_false_of_head_free bs [cbr] w hfree_bs
    exact protectBraces_id _ k1 k2
  -- each middle step is inert
  have e1 : subst mDD (bs :: w) = bs :: w :=
    subst_id_of_all mDD (· ≠ '$') (fun c t h1 _ => mDD_none_head c t h1) _ hfree_dl
  have e2 : subst mD (bs :: w) = bs :: w :=
    subst_id_of_all mD (· ≠ '$') (fun c t h1 _ => mD_none_head c t h1) _ hfree_dl
  have e3 : subst (mCmdNames funcNames id true) (bs :: w) = bs :: w := by
    refine subst_cons_id _ _ _ ?_ (tail_bs _ (fun c t h1 _ => mCmd_none_head _ _ _ c t h1))
    have hfn : firstPre funcNames w = none :=
      firstPre_none _ _ (fun nm h => hA nm (mFN nm h))
    simp [mCmdNames, hfn]
  have e4 : subst (mCmdNames greekNames id false) (bs :: w) = bs :: w := by
    refine subst_cons_id _ _ _ ?_ (tail_bs _ (fun c t h1 _ => mCmd_none_head _ _ _ c t h1))
    have hgn : firstPre greekNames w = none :=
      firstPre_none _ _ (fun nm h => hA nm (mGN nm h))
    simp [mCmdNames, hgn]
  have e5 : subst (mCmdNames symNames (fun _ => ['*']) false) (bs :: w) = bs :: w := by
    refine subst_cons_id _ _ _ ?_ (tail_bs _ (fun c t h1 _ => mCmd_none_head _ _ _ c t h1))
    have hsn : firstPre symNames w = none :=
      firstPre_none _ _ (fun nm h => hA nm (mSN nm h))
    simp [mCmdNames, hsn]
  have e6 : replaceAll [bs, 'p', 'm'] ['+', '-'] (bs :: w) = bs :: w := by
    refine replaceAll_id _ _ _ (containsSeq_cons_false _ _ _ ?_
      (containsSeq_false_of_head_free bs _ w hfree_bs))
    rw [List.isPrefixOf_cons₂, beq_self_eq_true, Bool.true_and]
    have hpm : (['p', 'm'] : List Char).isPrefixOf w = false :=
      hA "pm".data (mRest _ (List.mem_cons_self _ _))
    exact hpm
  have e7 : replaceAll [bs, 'm', 'p'] ['-', '+'] (bs :: w) = bs :: w := by
    refine replaceAll_id _ _ _ (containsSeq_cons_false _ _ _ ?_
      (containsSeq_false_of_head_free bs _ w hfree_bs))
    rw [List.isPrefixOf_cons₂, beq_self_eq_true, Bool.true_and]
    have hmp : (['m', 'p'] : List Char).isPrefixOf w = false :=
      hA "mp".data (mRest _ (List.mem_cons_of_mem _ (List.mem_cons_self _ _)))
    exact hmp
  have hsq : ("sqrt".data).isPrefixOf w = false :=
    hA "sqrt".data (mRest _ (List.mem_cons_of_mem _ (List.mem_cons_of_mem _
      (List.mem_cons_self _ _))))
  have e8 : subst mSqrtB (bs :: w) = bs :: w := by
    refine subst_cons_id _ _ _ ?_ (tail_bs _ (fun c t h1 _ => mSqrtB_none_head c t h1))
    have hsqb : ("sqrt[".data).isPrefixOf w = false := by
      cases hq : ("sqrt[".data).isPrefixOf w
      · rfl
      · exfalso
        have hq2 : ("sqrt".data ++ ['[']).isPrefixOf w = true := by
          rw [show "sqrt".data ++ ['['] = "sqrt[".data from by decide]
          exact hq
        have := isPrefixOf_of_append_isPrefixOf "sqrt".data ['['] w hq2
        rw [hsq] at this
        exact Bool.false_ne_true this
    simp [mSqrtB, hsqb]
  have e9 : subst mSqrt (bs :: w) = bs :: w := by
    refine subst_cons_id _ _ _ ?_ (tail_bs _ (fun c t h1 _ => mSqrt_none_head c t h1))
    have hsqo : ("sqrt".data ++ [obr]).isPrefixOf w = false := by
      cases hq : ("sqrt".data ++ [obr]).isPrefixOf w
      · rfl
      · exfalso
        have := isPrefixOf_of_append_isPrefixOf "sqrt".data [obr] w hq
        rw [hsq] at this
        exact Bool.false_ne_true this
    have hsqo2 : ¬ ((['s', 'q', 'r', 't', obr] : List Char) <+: w) := by
      intro hp
      have h9 : (("sqrt".data ++ [obr]) : List Char).isPrefixOf w = true :=
        List.isPrefixOf_iff_prefix.mpr hp
      rw [hsqo] at h9
      exact Bool.false_ne_true h9
    simp [mSqrt, hsqo2]
  have e10 : subst (mTextWith id) (bs :: w) = bs :: w := by
    refine subst_cons_id _ _ _ ?_ (tail_bs _ (fun c t h1 _ => mText_none_head id c t h1))
    have htx : ("text".data).isPrefixOf w = false :=
      hA "text".data (mRest _ (List.mem_cons_of_mem _ (List.mem_cons_of_mem _
        (List.mem_cons_of_mem _ (List.mem_cons_self _ _)))))
    have htxo : ("text".data ++ [obr]).isPrefixOf w = false := by
      cases hq : ("text".data ++ [obr]).isPrefixOf w
      · rfl
      · exfalso
        have := isPrefixOf_of_append_isPrefixOf "text".data [obr] w hq
        rw [htx] at this
        exact Bool.false_ne_true this
    have htxo2 : ¬ ((['t', 'e', 'x', 't', obr] : List Char) <+: w) := by
      intro hp
      have h9 : (("text".data ++ [obr]) : List Char).isPrefixOf w = true :=
        List.isPrefixOf_iff_prefix.mpr hp
      rw [htxo] at h9
      exact Bool.false_ne_true h9
    simp [mTextWith, htxo2]
  have e11 : subst mFrac (bs :: w) = bs :: w := by
    refine subst_cons_id _ _ _ ?_ (tail_bs _ (fun c t h1 _ => mFrac_none_head c t h1))
    have hfr : ("frac".data).isPrefixOf w = false :=
      hA "frac".data (mRest _ (List.mem_cons_of_mem _ (List.mem_cons_of_mem _
        (List.mem_cons_of_mem _ (List.mem_cons_of_mem _ (List.mem_cons_self _ _))))))
    simp [mFrac, hfr]
  have e12 : subst mSup (bs :: w) = bs :: w :=
    subst_id_of_all mSup (· ≠ obr) (fun c t h1 h2 => mSup_none c t h1 h2) _ hfree_ob
  have e13 : subst mSubSc (bs :: w) = bs :: w :=
    subst_id_of_all mSubSc (· ≠ obr) (fun c t h1 h2 => mSubSc_none c t h1 h2) _ hfree_ob
  have e14 : replaceAll (bs :: "left".data) [] (bs :: w) = bs :: w := by
    refine replaceAll_id _ _ _ (containsSeq_cons_false _ _ _ ?_
      (containsSeq_false_of_head_free bs _ w hfree_bs))
    rw [List.isPrefixOf_cons₂, beq_self_eq_true, Bool.true_and]
    exact hA "left".data (mRest _ (List.mem_cons_of_mem _ (List.mem_cons_of_mem _
      (List.mem_cons_of_mem _ (List.mem_cons_of_mem _ (List.mem_cons_of_mem _
        (List.mem_cons_self _ _)))))))
  have e15 : replaceAll (bs :: "right".data) [] (bs :: w) = bs :: w := by
    refine replaceAll_id _ _ _ (containsSeq_cons_false _ _ _ ?_
      (containsSeq_false_of_head_free bs _ w hfree_bs))
    rw [List.isPrefixOf_cons₂, beq_self_eq_true, Bool.true_and]
    exact hA "right".data (mRest _ (List.mem_cons_of_mem _ (List.mem_cons_of_mem _
      (List.mem_cons_of_mem _ (List.mem_cons_of_mem _ (List.mem_cons_of_mem _
        (List.mem_cons_of_mem _ (List.mem_cons_self _ _))))))))
  have e16 : replaceAll [obr] [oprn] (bs :: w) = bs :: w :=
    replaceAll_id _ _ _ (containsSeq_false_of_head_free obr [] _ hfree_ob)
  have e17 : replaceAll [cbr] [cprn] (bs :: w) = bs :: w :=
    replaceAll_id _ _ _ (containsSeq_false_of_head_free cbr [] _ hfree_cb)
  have hmid : midPipe (bs :: w) = bs :: w := by
    simp only [midPipe]
    rw [e1, e2, e3, e4, e5, e6, e7, e8, e9, e10, e11, e12, e13, e14, e15, e16, e17]
  have hrest : restoreBraces (bs :: w) = bs :: w := by
    refine restoreBraces_id _ ?_ ?_
    · exact containsSeq_false_of_head_free '_' _ _ hfree_us
    · exact containsSeq_false_of_head_free '_' _ _ hfree_us
  have hnorm : normWS (bs :: w) = bs :: w := normWS_id _ hfree_ws
  have : ltp (bs :: w) = bs :: w := by
    rw [show ltp (bs :: w) =
      normWS (restoreBraces (midPipe (protectBraces (bs :: w)))) from rfl,
      hprot, hmid, hrest, hnorm]
  exact congrArg String.mk this

theorem C9_amended_witness :
    (("zz".data).all (fun c => 'a' ≤ c && c ≤ 'z') = true) ∧
    (tableNames.all (fun nm => !(nm.isPrefixOf "zz".data)) = true) ∧
    latex_to_plaintext "\\zz" = "\\zz" := by
  refine ⟨by decide, by decide, ?_⟩
  have h := C9_amended "zz".data (by decide) (by decide)
  calc latex_to_plaintext "\\zz"
      = latex_to_plaintext ⟨bs :: "zz".data⟩ := congrArg latex_to_plaintext (by decide)
    _ = ⟨bs :: "zz".data⟩ := h
    _ = "\\zz" := by decide
